import Mathlib

/-!
Verification of the quote-generator repository (alx_fe_javascript).

The repository holds near-duplicate variants of one browser script.  The two
components with observable algorithmic content are:

  resolveConflicts  (src/unnamed/part_000 lines 204-219, and
                     src/unnamed/part_001 lines 252-263), and
  importFromJsonFile (src/dom-manipulation/script.js lines 272-319, and
                     src/unnamed/part_001 lines 157-195; both variants run
                     the same array-processing algorithm after JSON.parse).

This file embeds those functions over a record type of quotes and proves or
refutes the stated properties.  The two resolveConflicts variants differ, so
both are embedded: resolveConflicts_v0 is the part_000 body and
resolveConflicts_v1 is the part_001 body.  JavaScript runtime details that the
source relies on are modelled explicitly: Map insertion order, plain-object
key ordering (array-index keys first, ascending, then string keys in insertion
order -- this is what Object.values returns), and the TypeError raised when
toLowerCase is called on a value that is not a string.
-/

namespace QuoteSync

/-- A quote record with the two fields the scripts use, both strings. -/
structure Quote where
  text : String
  category : String
deriving DecidableEq, Inhabited

/-- Models String.prototype.toLowerCase on the character data (the source only
relies on ASCII case folding for its keys). -/
def toLowerCase (s : String) : String := String.mk (s.data.map Char.toLower)

/-- The deduplication key both resolveConflicts variants derive from a quote:
q.text.toLowerCase(). -/
def quoteKey (q : Quote) : String := toLowerCase q.text

/-- Insert-or-replace into an insertion-ordered association list.  This is the
behaviour of both Map.prototype.set and plain-object property assignment in
JavaScript: an existing key keeps its position and gets the new value, a new
key is appended at the end. -/
def upsert {α : Type} : List (String × α) → String → α → List (String × α)
  | [], k, v => [(k, v)]
  | (k2, v2) :: rest, k, v => if k2 = k then (k, v) :: rest else (k2, v2) :: upsert rest k v

/-- Folds a list of quotes into an ordered map keyed by quoteKey, later
entries overwriting earlier ones in place.  This is the forEach/set loop of
part_001 resolveConflicts and the forEach/assignment loop of part_000. -/
def buildMap : List (String × Quote) → List Quote → List (String × Quote)
  | m, [] => m
  | m, q :: qs => buildMap (upsert m (quoteKey q) q) qs

/-- The part_001 resolveConflicts (lines 252-263): build a Map from the local
quotes keyed by lower-cased text, overwrite with each server quote, and return
Array.from(map.values()). -/
def resolveConflicts_v1 (localQuotes serverQuotes : List Quote) : List Quote :=
  let lowerLocal := buildMap [] localQuotes
  let afterServer := buildMap lowerLocal serverQuotes
  afterServer.map Prod.snd

/-- The character 0, used to recognise canonical decimal strings. -/
def zeroCh : Char := '0'

/-- Whether a character list is the canonical decimal representation of a
natural number: non-empty, all digits, and no leading zero unless it is the
single digit 0. -/
def isCanonicalDigits : List Char → Bool
  | [] => false
  | [c] => c.isDigit
  | c :: rest => c.isDigit && c != zeroCh && rest.all Char.isDigit

/-- The numeric value of a list of decimal digit characters. -/
def decimalValue (cs : List Char) : Nat := cs.foldl (fun a c => a * 10 + (c.toNat - 48)) 0

/-- An ECMAScript array index: a string is an array index exactly when it is
the canonical decimal form of an integer below 2^32 - 1.  Plain objects order
such property keys first, in ascending numeric order; all other string keys
follow in insertion order. -/
def arrayIndexVal? (s : String) : Option Nat :=
  if isCanonicalDigits s.data ∧ decimalValue s.data < 4294967295 then some (decimalValue s.data) else none

/-- Sort key for an object entry: the array-index value of its property key
(only ever used on entries whose key is an array index). -/
def entryIdx {α : Type} (e : String × α) : Nat := (arrayIndexVal? e.1).getD 0

/-- Insertion step of the stable sort applied to array-index entries. -/
def insertByIdx {α : Type} (e : String × α) : List (String × α) → List (String × α)
  | [] => [e]
  | f :: fs => if entryIdx e ≤ entryIdx f then e :: f :: fs else f :: insertByIdx e fs

/-- Stable insertion sort of object entries by ascending array-index value. -/
def sortByIdx {α : Type} : List (String × α) → List (String × α)
  | [] => []
  | e :: es => insertByIdx e (sortByIdx es)

/-- Whether an object entry has an array-index property key. -/
def isIdxEntry {α : Type} (e : String × α) : Bool := (arrayIndexVal? e.1).isSome

/-- Object.values applied to a plain object represented as its entries in
insertion order: array-index keys come first in ascending numeric order, the
remaining string keys keep insertion order. -/
def objectValues {α : Type} (m : List (String × α)) : List α :=
  let p := m.partition isIdxEntry
  (sortByIdx p.1 ++ p.2).map Prod.snd

/-- The part_000 resolveConflicts (lines 204-219): collect the lower-cased
local texts, keep only server quotes whose key is not among them, concatenate,
deduplicate through a plain object keyed by lower-cased text (last write
wins), and return Object.values of that object. -/
def resolveConflicts_v0 (localQuotes serverQuotes : List Quote) : List Quote :=
  let localTexts := localQuotes.map quoteKey
  let newServerQuotes := serverQuotes.filter (fun q => !(localTexts.contains (quoteKey q)))
  let merged := localQuotes ++ newServerQuotes
  objectValues (buildMap [] merged)

/-- The last quote in the list whose key equals k, if any. -/
def lastWith? (qs : List Quote) (k : String) : Option Quote :=
  match qs with
  | [] => none
  | q :: rest =>
    match lastWith? rest k with
    | some r => some r
    | none => if quoteKey q = k then some q else none

/-- Fuel-indexed recursion for dedupLastWins; the fuel is an upper bound on
the list length, so dedupLastWins always supplies enough. -/
def dedupLastWinsAux : Nat → List Quote → List Quote
  | 0, _ => []
  | _ + 1, [] => []
  | n + 1, q :: qs =>
    (lastWith? qs (quoteKey q)).getD q ::
      dedupLastWinsAux n (qs.filter (fun p => !(quoteKey p == quoteKey q)))

/-- Deduplication of a sequence against itself by quoteKey as the spec words
it for claim C4: each key appears once, at the position of its first
occurrence, carrying the fields of the last record with that key. -/
def dedupLastWins (qs : List Quote) : List Quote := dedupLastWinsAux qs.length qs

/-- The property keys of an ordered map. -/
def keysOf {α : Type} (m : List (String × α)) : List String := m.map Prod.fst

/-- Invariant of the maps the resolvers build: every entry is stored under the
key derived from its own value. -/
def Keyed (m : List (String × Quote)) : Prop := ∀ e ∈ m, quoteKey e.2 = e.1

/-- Number of records in a list whose key equals k. -/
def countKey (qs : List Quote) (k : String) : Nat := qs.countP (fun q => quoteKey q == k)

/-- A quote record as it arrives from parsed JSON or an untyped caller: each
field is either a string (some) or a value of another type (none). -/
structure RawQuote where
  text : Option String
  category : Option String
deriving DecidableEq

/-- The error message used to model the TypeError JavaScript raises when
q.text.toLowerCase() is evaluated and q.text is not a string. -/
def errTypeError : String := "TypeError: q.text.toLowerCase is not a function"

/-- q.text.toLowerCase() on a raw quote: ok with the lower-cased text when the
field is a string, a thrown TypeError otherwise. -/
def keyE (q : RawQuote) : Except String String :=
  match q.text with
  | some t => Except.ok (toLowerCase t)
  | none => Except.error errTypeError

/-- The buildMap loop over raw quotes, propagating the TypeError that key
computation can raise. -/
def buildMapE (m : List (String × RawQuote)) : List RawQuote → Except String (List (String × RawQuote))
  | [] => Except.ok m
  | q :: qs =>
    match keyE q with
    | Except.ok k => buildMapE (upsert m k q) qs
    | Except.error e => Except.error e

/-- The part_001 resolveConflicts run on raw (possibly ill-typed) quotes,
modelling exactly where the JavaScript body can throw: the first thrown
TypeError aborts the call. -/
def resolveConflicts_v1E (localQuotes serverQuotes : List RawQuote) : Except String (List RawQuote) :=
  match buildMapE [] localQuotes with
  | Except.error e => Except.error e
  | Except.ok m1 =>
    match buildMapE m1 serverQuotes with
    | Except.error e => Except.error e
    | Except.ok m2 => Except.ok (m2.map Prod.snd)

/-- localQuotes.map(q => q.text.toLowerCase()) on raw quotes, left to right,
throwing at the first non-string text. -/
def textKeysE : List RawQuote → Except String (List String)
  | [] => Except.ok []
  | q :: qs =>
    match keyE q with
    | Except.error e => Except.error e
    | Except.ok k =>
      match textKeysE qs with
      | Except.error e => Except.error e
      | Except.ok ks => Except.ok (k :: ks)

/-- serverQuotes.filter(q => !localTexts.has(q.text.toLowerCase())) on raw
quotes, throwing at the first non-string text. -/
def filterNewE (localTexts : List String) : List RawQuote → Except String (List RawQuote)
  | [] => Except.ok []
  | q :: qs =>
    match keyE q with
    | Except.error e => Except.error e
    | Except.ok k =>
      match filterNewE localTexts qs with
      | Except.error e => Except.error e
      | Except.ok rest => Except.ok (if localTexts.contains k then rest else q :: rest)

/-- The part_000 resolveConflicts run on raw (possibly ill-typed) quotes:
the first thrown TypeError aborts the call. -/
def resolveConflicts_v0E (localQuotes serverQuotes : List RawQuote) : Except String (List RawQuote) :=
  match textKeysE localQuotes with
  | Except.error e => Except.error e
  | Except.ok localTexts =>
    match filterNewE localTexts serverQuotes with
    | Except.error e => Except.error e
    | Except.ok newServerQuotes =>
      match buildMapE [] (localQuotes ++ newServerQuotes) with
      | Except.error e => Except.error e
      | Except.ok uniq => Except.ok (objectValues uniq)

/-- The separator the import uses inside its duplicate-detection key. -/
def sepStr : String := "||"

/-- The duplicate-detection key of the import: q.text + the separator +
q.category, case sensitive. -/
def importKey (q : Quote) : String := q.text ++ sepStr ++ q.category

/-- The validation test of importFromJsonFile: an element of the parsed array
is kept exactly when it is an object whose text and category are both
strings. -/
def toQuote? : Option RawQuote → Option Quote
  | some it =>
    match it.text, it.category with
    | some t, some c => some { text := t, category := c }
    | _, _ => none
  | none => none

/-- One iteration of the import loop: skip the record when its key is already
in the seen set, otherwise push it and add its key. -/
def importStep (st : List Quote × List String) (q : Quote) : List Quote × List String :=
  if st.2.contains (importKey q) then st else (st.1 ++ [q], importKey q :: st.2)

/-- importFromJsonFile (script.js lines 272-319 and part_001 lines 157-195)
after JSON.parse has produced an array: filter the array down to objects with
string text and string category, return the quotes unchanged when nothing
validates, otherwise seed the seen set with the keys of the existing quotes
and run the append loop. -/
def importFromJsonFile (existing : List Quote) (parsed : List (Option RawQuote)) : List Quote :=
  let validated := parsed.filterMap toQuote?
  if validated.isEmpty then existing
  else (validated.foldl importStep (existing, existing.map importKey)).1

/-- Value stored under a key in an ordered map, if any. -/
def findVal {α : Type} : List (String × α) → String → Option α
  | [], _ => none
  | (k2, v) :: rest, k => if k2 = k then some v else findVal rest k

/-! Concrete data used by the closed counterexample and witness theorems. -/

/-- Sample text, capitalised variant. -/
def tBeBoldU : String := "Be bold"

/-- Sample text, lower-case variant of the same key. -/
def tBeBoldL : String := "be bold"

/-- Sample category. -/
def catOld : String := "Old"

/-- Sample category. -/
def catNew : String := "New"

/-- Sample category. -/
def catX : String := "X"

/-- Sample category. -/
def catY : String := "Y"

/-- Sample category. -/
def catZ : String := "Z"

/-- Sample text. -/
def tAU : String := "A"

/-- Sample text, same key as tAU. -/
def tAL : String := "a"

/-- Sample text. -/
def tBU : String := "B"

/-- Sample text, same key as tBU. -/
def tBL : String := "b"

/-- Sample text that is a canonical array-index string. -/
def tOne : String := "1"

/-- Sample text that is a canonical array-index string. -/
def tZero : String := "0"

/-- Sample text that is not an array index. -/
def tX : String := "x"

/-- The empty string, used as a text value. -/
def emptyStr : String := ""

/-- Local record of the C1 failing input. -/
def qC1Loc : Quote := { text := tBeBoldU, category := catOld }

/-- Remote record of the C1 failing input. -/
def qC1Rem : Quote := { text := tBeBoldL, category := catNew }

/-- Sample quote. -/
def qAX : Quote := { text := tAU, category := catX }

/-- Sample quote colliding with qAX on key. -/
def qaY : Quote := { text := tAL, category := catY }

/-- Sample quote. -/
def qBY : Quote := { text := tBU, category := catY }

/-- Sample quote colliding with qBY on key. -/
def qbZ : Quote := { text := tBL, category := catZ }

/-- Sample quote with an array-index text. -/
def q1Y : Quote := { text := tOne, category := catY }

/-- Sample quote with an array-index text. -/
def q0Z : Quote := { text := tZero, category := catZ }

/-- Sample quote with a non-index text. -/
def qxY : Quote := { text := tX, category := catY }

/-- Sample quote whose text is the empty string. -/
def qEmptyY : Quote := { text := emptyStr, category := catY }

/-- Raw record whose text is not a string. -/
def rqNoText : RawQuote := { text := none, category := some catY }

/-- Raw record carrying qAX. -/
def rqAX : RawQuote := { text := some tAU, category := some catX }

/-- Raw record carrying qBY. -/
def rqBY : RawQuote := { text := some tBU, category := some catY }

/-- Raw record carrying qbZ. -/
def rqbZ : RawQuote := { text := some tBL, category := some catZ }

/-! Basic facts about upsert and the maps the resolvers build. -/

theorem keysOf_nil {α : Type} : keysOf ([] : List (String × α)) = [] := rfl

theorem keysOf_cons {α : Type} (e : String × α) (m : List (String × α)) :
    keysOf (e :: m) = e.1 :: keysOf m := rfl

theorem keysOf_append {α : Type} (m1 m2 : List (String × α)) :
    keysOf (m1 ++ m2) = keysOf m1 ++ keysOf m2 := List.map_append Prod.fst m1 m2

theorem upsert_nil {α : Type} (k : String) (v : α) : upsert [] k v = [(k, v)] := rfl

theorem upsert_cons {α : Type} (k3 : String) (v3 : α) (rest : List (String × α)) (k : String) (v : α) :
    upsert ((k3, v3) :: rest) k v =
      if k3 = k then (k, v) :: rest else (k3, v3) :: upsert rest k v := rfl

theorem findVal_nil {α : Type} (k : String) : findVal ([] : List (String × α)) k = none := rfl

theorem findVal_cons {α : Type} (k3 : String) (v3 : α) (rest : List (String × α)) (k : String) :
    findVal ((k3, v3) :: rest) k = if k3 = k then some v3 else findVal rest k := rfl

theorem mem_keysOf_upsert {α : Type} (m : List (String × α)) (k k2 : String) (v : α) :
    k2 ∈ keysOf (upsert m k v) ↔ k2 ∈ keysOf m ∨ k2 = k := by
  induction m with
  | nil => simp [upsert_nil, keysOf]
  | cons e rest ih =>
    obtain ⟨k3, v3⟩ := e
    rw [upsert_cons]
    by_cases h : k3 = k
    · rw [if_pos h, keysOf_cons, keysOf_cons]
      subst h
      simp only [List.mem_cons]
      tauto
    · rw [if_neg h, keysOf_cons, keysOf_cons]
      simp only [List.mem_cons, ih]
      tauto

theorem upsert_eq_append {α : Type} (m : List (String × α)) (k : String) (v : α)
    (h : k ∉ keysOf m) : upsert m k v = m ++ [(k, v)] := by
  induction m with
  | nil => rfl
  | cons e rest ih =>
    obtain ⟨k3, v3⟩ := e
    rw [keysOf_cons, List.mem_cons] at h
    push_neg at h
    rw [upsert_cons, if_neg (fun hk : k3 = k => h.1 hk.symm), List.cons_append, ih h.2]

theorem keysOf_upsert_of_mem {α : Type} (m : List (String × α)) (k : String) (v : α)
    (h : k ∈ keysOf m) : keysOf (upsert m k v) = keysOf m := by
  induction m with
  | nil => simp [keysOf] at h
  | cons e rest ih =>
    obtain ⟨k3, v3⟩ := e
    rw [upsert_cons]
    by_cases hk : k3 = k
    · rw [if_pos hk, keysOf_cons, keysOf_cons, hk]
    · rw [keysOf_cons, List.mem_cons] at h
      rcases h with h | h
      · exact absurd h.symm hk
      · rw [if_neg hk, keysOf_cons, keysOf_cons, ih h]

theorem nodup_keysOf_upsert {α : Type} (m : List (String × α)) (k : String) (v : α)
    (h : (keysOf m).Nodup) : (keysOf (upsert m k v)).Nodup := by
  by_cases hk : k ∈ keysOf m
  · rw [keysOf_upsert_of_mem m k v hk]; exact h
  · rw [upsert_eq_append m k v hk, keysOf_append]
    simp only [keysOf, List.map]
    rw [List.nodup_append]
    refine ⟨h, List.nodup_singleton k, ?_⟩
    intro a ha hb
    simp only [List.mem_singleton] at hb
    exact hk (hb ▸ ha)

theorem keyed_upsert (m : List (String × Quote)) (q : Quote)
    (h : Keyed m) : Keyed (upsert m (quoteKey q) q) := by
  induction m with
  | nil =>
    intro e he
    rw [upsert_nil, List.mem_singleton] at he
    rw [he]
  | cons f rest ih =>
    obtain ⟨k3, v3⟩ := f
    have hrest : Keyed rest := fun e he => h e (List.mem_cons_of_mem _ he)
    rw [upsert_cons]
    by_cases hk : k3 = quoteKey q
    · rw [if_pos hk]
      intro e he
      rcases List.mem_cons.mp he with he | he
      · rw [he]
      · exact hrest e he
    · rw [if_neg hk]
      intro e he
      rcases List.mem_cons.mp he with he | he
      · exact h e (he ▸ List.mem_cons_self _ _)
      · exact ih hrest e he

theorem findVal_upsert_self {α : Type} (m : List (String × α)) (k : String) (v : α) :
    findVal (upsert m k v) k = some v := by
  induction m with
  | nil => rw [upsert_nil, findVal_cons, if_pos rfl]
  | cons e rest ih =>
    obtain ⟨k3, v3⟩ := e
    rw [upsert_cons]
    by_cases hk : k3 = k
    · rw [if_pos hk, findVal_cons, if_pos rfl]
    · rw [if_neg hk, findVal_cons, if_neg hk, ih]

theorem findVal_upsert_other {α : Type} (m : List (String × α)) (k k2 : String) (v : α)
    (h : k2 ≠ k) : findVal (upsert m k v) k2 = findVal m k2 := by
  induction m with
  | nil => rw [upsert_nil, findVal_cons, if_neg (fun hk : k = k2 => h hk.symm), findVal_nil]
  | cons e rest ih =>
    obtain ⟨k3, v3⟩ := e
    rw [upsert_cons]
    by_cases hk : k3 = k
    · rw [if_pos hk, findVal_cons, findVal_cons, if_neg (fun hk2 : k = k2 => h hk2.symm),
        if_neg (fun hk2 : k3 = k2 => h (hk2.symm.trans hk))]
    · rw [if_neg hk, findVal_cons, findVal_cons, ih]

theorem findVal_mem {α : Type} (m : List (String × α)) (k : String) (v : α)
    (h : findVal m k = some v) : (k, v) ∈ m := by
  induction m with
  | nil => rw [findVal_nil] at h; cases h
  | cons e rest ih =>
    obtain ⟨k3, v3⟩ := e
    rw [findVal_cons] at h
    by_cases hk : k3 = k
    · rw [if_pos hk] at h
      rw [Option.some_inj] at h
      rw [← hk, ← h]
      exact List.mem_cons_self _ _
    · rw [if_neg hk] at h
      exact List.mem_cons_of_mem _ (ih h)

theorem mem_keysOf_buildMap (m : List (String × Quote)) (qs : List Quote) (k : String) :
    k ∈ keysOf (buildMap m qs) ↔ k ∈ keysOf m ∨ k ∈ qs.map quoteKey := by
  induction qs generalizing m with
  | nil => simp [buildMap]
  | cons q rest ih =>
    simp only [buildMap, ih, mem_keysOf_upsert, List.map_cons, List.mem_cons]
    tauto

theorem nodup_keysOf_buildMap (m : List (String × Quote)) (qs : List Quote)
    (h : (keysOf m).Nodup) : (keysOf (buildMap m qs)).Nodup := by
  induction qs generalizing m with
  | nil => exact h
  | cons q rest ih => exact ih _ (nodup_keysOf_upsert _ _ _ h)

theorem keyed_buildMap (m : List (String × Quote)) (qs : List Quote)
    (h : Keyed m) : Keyed (buildMap m qs) := by
  induction qs generalizing m with
  | nil => exact h
  | cons q rest ih => exact ih _ (keyed_upsert _ _ h)

/-! The map each resolver builds stores, under each key, the last input quote
bearing that key. -/

theorem buildMap_nil (m : List (String × Quote)) : buildMap m [] = m := rfl

theorem buildMap_cons (m : List (String × Quote)) (q : Quote) (qs : List Quote) :
    buildMap m (q :: qs) = buildMap (upsert m (quoteKey q) q) qs := rfl

theorem lastWith?_nil (k : String) : lastWith? [] k = none := rfl

theorem lastWith?_cons_some (q : Quote) (qs : List Quote) (k : String) (r : Quote)
    (h : lastWith? qs k = some r) : lastWith? (q :: qs) k = some r := by
  rw [lastWith?, h]

theorem lastWith?_cons_none (q : Quote) (qs : List Quote) (k : String)
    (h : lastWith? qs k = none) :
    lastWith? (q :: qs) k = if quoteKey q = k then some q else none := by
  rw [lastWith?, h]

theorem lastWith?_eq_none (qs : List Quote) (k : String) (h : k ∉ qs.map quoteKey) :
    lastWith? qs k = none := by
  induction qs with
  | nil => rfl
  | cons q rest ih =>
    rw [List.map_cons, List.mem_cons] at h
    push_neg at h
    rw [lastWith?_cons_none q rest k (ih h.2), if_neg (fun hq : quoteKey q = k => h.1 hq.symm)]

theorem lastWith?_append_none (a b : List Quote) (k : String) (hb : lastWith? b k = none) :
    lastWith? (a ++ b) k = lastWith? a k := by
  induction a with
  | nil => simpa using hb
  | cons q rest ih =>
    rw [List.cons_append, lastWith?, ih, lastWith?]

theorem findVal_buildMap_of_none (qs : List Quote) (m : List (String × Quote)) (k : String)
    (h : lastWith? qs k = none) : findVal (buildMap m qs) k = findVal m k := by
  induction qs generalizing m with
  | nil => rfl
  | cons q rest ih =>
    cases hr : lastWith? rest k with
    | some r => rw [lastWith?_cons_some q rest k r hr] at h; exact Option.noConfusion h
    | none =>
      rw [lastWith?_cons_none q rest k hr] at h
      by_cases hq : quoteKey q = k
      · rw [if_pos hq] at h; exact Option.noConfusion h
      · rw [buildMap_cons, ih _ hr,
          findVal_upsert_other _ _ _ _ (fun hk : k = quoteKey q => hq hk.symm)]

theorem findVal_buildMap_of_some (qs : List Quote) (m : List (String × Quote)) (k : String)
    (q : Quote) (h : lastWith? qs k = some q) : findVal (buildMap m qs) k = some q := by
  induction qs generalizing m with
  | nil => exact Option.noConfusion h
  | cons p rest ih =>
    rw [buildMap_cons]
    cases hr : lastWith? rest k with
    | some r =>
      rw [lastWith?_cons_some p rest k r hr] at h
      rw [Option.some_inj] at h
      subst h
      exact ih _ hr
    | none =>
      rw [lastWith?_cons_none p rest k hr] at h
      by_cases hp : quoteKey p = k
      · rw [if_pos hp] at h
        rw [Option.some_inj] at h
        rw [findVal_buildMap_of_none rest _ k hr, ← hp, findVal_upsert_self, h]
      · rw [if_neg hp] at h
        exact Option.noConfusion h

theorem buildMap_eq_append (qs : List Quote) (m : List (String × Quote))
    (hm : ∀ q ∈ qs, quoteKey q ∉ keysOf m) (hn : (qs.map quoteKey).Nodup) :
    buildMap m qs = m ++ qs.map (fun q => (quoteKey q, q)) := by
  induction qs generalizing m with
  | nil => simp [buildMap_nil]
  | cons q rest ih =>
    rw [buildMap_cons, upsert_eq_append m _ q (hm q (List.mem_cons_self q rest))]
    rw [List.map_cons] at hn
    have hn2 := List.nodup_cons.mp hn
    have hm2 : ∀ p ∈ rest, quoteKey p ∉ keysOf (m ++ [(quoteKey q, q)]) := by
      intro p hp
      rw [keysOf_append]
      rw [List.mem_append]
      rintro (hmem | hmem)
      · exact hm p (List.mem_cons_of_mem _ hp) hmem
      · rw [keysOf_cons, keysOf_nil, List.mem_singleton] at hmem
        have hmem2 : quoteKey p = quoteKey q := hmem
        exact hn2.1 (hmem2 ▸ List.mem_map_of_mem quoteKey hp)
    rw [ih _ hm2 hn2.2, List.map_cons, List.append_assoc, List.singleton_append]

theorem map_snd_map_pair (qs : List Quote) :
    (qs.map (fun q => (quoteKey q, q))).map Prod.snd = qs := by
  induction qs with
  | nil => rfl
  | cons q rest ih => rw [List.map_cons, List.map_cons, ih]

theorem buildMap_head_entry (qs : List Quote) (k : String) (v : Quote)
    (m : List (String × Quote)) :
    buildMap ((k, v) :: m) qs =
      (k, (lastWith? qs k).getD v) ::
        buildMap m (qs.filter (fun p => !(quoteKey p == k))) := by
  induction qs generalizing m v with
  | nil => simp [buildMap_nil, lastWith?_nil]
  | cons q rest ih =>
    rw [buildMap_cons, upsert_cons]
    by_cases hq : k = quoteKey q
    · have hfilter : (q :: rest).filter (fun p => !(quoteKey p == k)) =
          rest.filter (fun p => !(quoteKey p == k)) := by
        simp [List.filter_cons, hq]
      rw [if_pos hq, ← hq, ih q m, hfilter]
      cases hr : lastWith? rest k with
      | some r =>
        rw [lastWith?_cons_some q rest k r hr]
        rfl
      | none =>
        rw [lastWith?_cons_none q rest k hr, if_pos hq.symm]
        rfl
    · have hfilter : (q :: rest).filter (fun p => !(quoteKey p == k)) =
          q :: rest.filter (fun p => !(quoteKey p == k)) := by
        simp [List.filter_cons, Ne.symm hq]
      rw [if_neg hq, hfilter, buildMap_cons, ih]
      cases hr : lastWith? rest k with
      | some r => rw [lastWith?_cons_some q rest k r hr]
      | none =>
        rw [lastWith?_cons_none q rest k hr,
          if_neg (fun h : quoteKey q = k => hq h.symm)]

theorem map_snd_buildMap_eq_dedupAux :
    ∀ (n : Nat) (qs : List Quote), qs.length ≤ n →
      (buildMap [] qs).map Prod.snd = dedupLastWinsAux n qs := by
  intro n
  induction n with
  | zero =>
    intro qs h
    rw [Nat.le_zero] at h
    rw [List.length_eq_zero] at h
    subst h
    rfl
  | succ n ih =>
    intro qs h
    cases qs with
    | nil => rfl
    | cons q rest =>
      rw [buildMap_cons, upsert_nil, buildMap_head_entry, List.map_cons]
      have hlen : (rest.filter (fun p => !(quoteKey p == quoteKey q))).length ≤ n := by
        have h1 := List.length_filter_le (fun p => !(quoteKey p == quoteKey q)) rest
        have h2 : rest.length ≤ n := Nat.succ_le_succ_iff.mp h
        exact Nat.le_trans h1 h2
      rw [ih _ hlen]
      rfl

theorem map_snd_buildMap_eq_dedup (qs : List Quote) :
    (buildMap [] qs).map Prod.snd = dedupLastWins qs :=
  map_snd_buildMap_eq_dedupAux qs.length qs (Nat.le_refl _)

theorem v1_empty_local_eq_dedup (qs : List Quote) :
    resolveConflicts_v1 [] qs = dedupLastWins qs :=
  map_snd_buildMap_eq_dedup qs

/-! Facts about the object key ordering that part_000 returns through
Object.values: the reordering is a permutation, it is the identity when no
key is an array index, and it is idempotent. -/

theorem insertByIdx_nil {α : Type} (e : String × α) : insertByIdx e [] = [e] := rfl

theorem insertByIdx_cons {α : Type} (e f : String × α) (fs : List (String × α)) :
    insertByIdx e (f :: fs) =
      if entryIdx e ≤ entryIdx f then e :: f :: fs else f :: insertByIdx e fs := rfl

theorem sortByIdx_nil {α : Type} : sortByIdx ([] : List (String × α)) = [] := rfl

theorem sortByIdx_cons {α : Type} (e : String × α) (es : List (String × α)) :
    sortByIdx (e :: es) = insertByIdx e (sortByIdx es) := rfl

theorem insertByIdx_perm {α : Type} (e : String × α) (l : List (String × α)) :
    List.Perm (insertByIdx e l) (e :: l) := by
  induction l with
  | nil => exact List.Perm.refl _
  | cons f fs ih =>
    rw [insertByIdx_cons]
    by_cases h : entryIdx e ≤ entryIdx f
    · rw [if_pos h]
    · rw [if_neg h]
      exact (ih.cons f).trans (List.Perm.swap e f fs)

theorem sortByIdx_perm {α : Type} (l : List (String × α)) :
    List.Perm (sortByIdx l) l := by
  induction l with
  | nil => exact List.Perm.refl _
  | cons e es ih =>
    rw [sortByIdx_cons]
    exact (insertByIdx_perm e (sortByIdx es)).trans (ih.cons e)

theorem mem_insertByIdx {α : Type} (a e : String × α) (l : List (String × α)) :
    a ∈ insertByIdx e l ↔ a = e ∨ a ∈ l := by
  rw [(insertByIdx_perm e l).mem_iff]
  exact List.mem_cons

theorem pairwise_insertByIdx {α : Type} (e : String × α) (l : List (String × α))
    (h : List.Pairwise (fun a b => entryIdx a ≤ entryIdx b) l) :
    List.Pairwise (fun a b => entryIdx a ≤ entryIdx b) (insertByIdx e l) := by
  induction l with
  | nil => exact List.pairwise_singleton _ e
  | cons f fs ih =>
    rw [insertByIdx_cons]
    rcases List.pairwise_cons.mp h with ⟨hf, hfs⟩
    by_cases hef : entryIdx e ≤ entryIdx f
    · refine if_pos hef ▸ List.pairwise_cons.mpr ⟨?_, h⟩
      intro b hb
      rcases List.mem_cons.mp hb with hb | hb
      · exact hb ▸ hef
      · exact Nat.le_trans hef (hf b hb)
    · refine if_neg hef ▸ List.pairwise_cons.mpr ⟨?_, ih hfs⟩
      intro b hb
      rcases (mem_insertByIdx b e fs).mp hb with hb | hb
      · exact hb ▸ Nat.le_of_not_le hef
      · exact hf b hb

theorem pairwise_sortByIdx {α : Type} (l : List (String × α)) :
    List.Pairwise (fun a b => entryIdx a ≤ entryIdx b) (sortByIdx l) := by
  induction l with
  | nil => exact List.Pairwise.nil
  | cons e es ih =>
    rw [sortByIdx_cons]
    exact pairwise_insertByIdx e _ ih

theorem insertByIdx_eq_cons {α : Type} (e : String × α) (l : List (String × α))
    (h : ∀ f ∈ l, entryIdx e ≤ entryIdx f) : insertByIdx e l = e :: l := by
  cases l with
  | nil => rfl
  | cons f fs => rw [insertByIdx_cons, if_pos (h f (List.mem_cons_self f fs))]

theorem sortByIdx_eq_of_pairwise {α : Type} (l : List (String × α))
    (h : List.Pairwise (fun a b => entryIdx a ≤ entryIdx b) l) : sortByIdx l = l := by
  induction l with
  | nil => rfl
  | cons e es ih =>
    rcases List.pairwise_cons.mp h with ⟨he, hes⟩
    rw [sortByIdx_cons, ih hes, insertByIdx_eq_cons e es he]

theorem objectValues_eq {α : Type} (m : List (String × α)) :
    objectValues m =
      (sortByIdx (m.filter isIdxEntry) ++ m.filter (fun e => !isIdxEntry e)).map Prod.snd := by
  rw [objectValues, List.partition_eq_filter_filter]
  rfl

theorem objectValues_perm {α : Type} (m : List (String × α)) :
    List.Perm (objectValues m) (m.map Prod.snd) := by
  rw [objectValues_eq]
  refine List.Perm.map Prod.snd ?_
  exact ((sortByIdx_perm _).append_right _).trans (List.filter_append_perm _ m)

theorem objectValues_of_no_idx {α : Type} (m : List (String × α))
    (h : ∀ e ∈ m, isIdxEntry e = false) : objectValues m = m.map Prod.snd := by
  rw [objectValues_eq]
  have h1 : m.filter isIdxEntry = [] := by
    refine List.filter_eq_nil_iff.mpr ?_
    intro a ha
    rw [h a ha]
    exact Bool.false_ne_true
  have h2 : m.filter (fun e => !isIdxEntry e) = m := by
    refine List.filter_eq_self.mpr ?_
    intro a ha
    rw [h a ha]
    rfl
  rw [h1, h2, sortByIdx_nil, List.nil_append]

/-! Keyed maps: values determine keys, so key counts transfer from the key
list to the value list. -/

theorem keyed_nil : Keyed [] := by
  intro e he
  cases he

theorem keyed_map_snd_keys (m : List (String × Quote)) (h : Keyed m) :
    (m.map Prod.snd).map quoteKey = keysOf m := by
  rw [List.map_map]
  exact List.map_congr_left (fun e he => h e he)

theorem countP_beq_eq_zero (l : List String) (k : String) (hk : k ∉ l) :
    l.countP (fun x => x == k) = 0 := by
  refine List.countP_eq_zero.mpr ?_
  intro a ha hak
  rw [beq_iff_eq] at hak
  exact hk (hak ▸ ha)

theorem countP_beq_eq_one (l : List String) (k : String) (hn : l.Nodup) (hk : k ∈ l) :
    l.countP (fun x => x == k) = 1 := by
  induction l with
  | nil => cases hk
  | cons a rest ih =>
    rcases List.nodup_cons.mp hn with ⟨ha, hrest⟩
    rw [List.countP_cons]
    rcases List.mem_cons.mp hk with hk | hk
    · rw [countP_beq_eq_zero rest k (hk ▸ ha), if_pos (by rw [beq_iff_eq]; exact hk.symm)]
    · have hak : ¬(a == k) = true := by
        rw [beq_iff_eq]
        intro hak
        exact ha (hak ▸ hk)
      rw [ih hrest hk, if_neg hak]

theorem countKey_map_snd (m : List (String × Quote)) (k : String) (h : Keyed m) :
    countKey (m.map Prod.snd) k = (keysOf m).countP (fun x => x == k) := by
  rw [countKey, List.countP_map, keysOf, List.countP_map]
  refine List.countP_congr ?_
  intro e he
  have he2 : quoteKey e.2 = e.1 := h e he
  constructor
  · intro hq
    have hq2 : quoteKey e.2 = k := by
      have := hq
      rwa [Function.comp_apply, beq_iff_eq] at this
    rw [Function.comp_apply, beq_iff_eq, ← he2]
    exact hq2
  · intro hq
    have hq2 : e.1 = k := by
      have := hq
      rwa [Function.comp_apply, beq_iff_eq] at this
    rw [Function.comp_apply, beq_iff_eq, he2]
    exact hq2

theorem countKey_perm (qs1 qs2 : List Quote) (k : String) (h : List.Perm qs1 qs2) :
    countKey qs1 k = countKey qs2 k := h.countP_eq _

/-! Structural facts about the two resolvers. -/

theorem resolveConflicts_v1_eq (lq rq : List Quote) :
    resolveConflicts_v1 lq rq = (buildMap (buildMap [] lq) rq).map Prod.snd := rfl

theorem resolveConflicts_v0_eq (lq rq : List Quote) :
    resolveConflicts_v0 lq rq =
      objectValues (buildMap []
        (lq ++ rq.filter (fun q => !((lq.map quoteKey).contains (quoteKey q))))) := rfl

theorem contains_iff (l : List String) (s : String) : l.contains s = true ↔ s ∈ l := by
  simp

theorem nodup_keysOf_nil : (keysOf ([] : List (String × Quote))).Nodup := List.nodup_nil

theorem nodup_keys_v1 (lq rq : List Quote) :
    ((resolveConflicts_v1 lq rq).map quoteKey).Nodup := by
  rw [resolveConflicts_v1_eq,
    keyed_map_snd_keys _ (keyed_buildMap _ _ (keyed_buildMap _ _ keyed_nil))]
  exact nodup_keysOf_buildMap _ _ (nodup_keysOf_buildMap _ _ nodup_keysOf_nil)

theorem nodup_keys_v0 (lq rq : List Quote) :
    ((resolveConflicts_v0 lq rq).map quoteKey).Nodup := by
  rw [resolveConflicts_v0_eq]
  have hkeyed := keyed_buildMap
    ([] : List (String × Quote))
    (lq ++ rq.filter (fun q => !((lq.map quoteKey).contains (quoteKey q)))) keyed_nil
  have hperm := (objectValues_perm (buildMap []
    (lq ++ rq.filter (fun q => !((lq.map quoteKey).contains (quoteKey q)))))).map quoteKey
  rw [keyed_map_snd_keys _ hkeyed] at hperm
  exact hperm.nodup_iff.mpr (nodup_keysOf_buildMap _ _ nodup_keysOf_nil)

theorem mem_keys_exists_value (m : List (String × Quote)) (k : String) (h : Keyed m)
    (hk : k ∈ keysOf m) : ∃ r ∈ m.map Prod.snd, quoteKey r = k := by
  rw [keysOf] at hk
  rcases List.mem_map.mp hk with ⟨e, he, hek⟩
  exact ⟨e.2, List.mem_map_of_mem Prod.snd he, (h e he).trans hek⟩

theorem mem_keys_v1_map (lq rq : List Quote) (q : Quote) (h : q ∈ lq ++ rq) :
    quoteKey q ∈ keysOf (buildMap (buildMap [] lq) rq) := by
  rw [mem_keysOf_buildMap]
  rcases List.mem_append.mp h with h | h
  · left
    rw [mem_keysOf_buildMap]
    right
    exact List.mem_map_of_mem quoteKey h
  · right
    exact List.mem_map_of_mem quoteKey h

theorem mem_keys_v0_map (lq rq : List Quote) (q : Quote) (h : q ∈ lq ++ rq) :
    quoteKey q ∈ keysOf (buildMap []
      (lq ++ rq.filter (fun p => !((lq.map quoteKey).contains (quoteKey p))))) := by
  rw [mem_keysOf_buildMap]
  right
  rw [List.map_append, List.mem_append]
  rcases List.mem_append.mp h with h | h
  · left
    exact List.mem_map_of_mem quoteKey h
  · by_cases hk : quoteKey q ∈ lq.map quoteKey
    · left
      exact hk
    · right
      have hc : (lq.map quoteKey).contains (quoteKey q) = false := by
        rcases Bool.eq_false_or_eq_true ((lq.map quoteKey).contains (quoteKey q)) with hb | hb
        · exact absurd ((contains_iff _ _).mp hb) hk
        · exact hb
      refine List.mem_map_of_mem quoteKey (List.mem_filter.mpr ⟨h, ?_⟩)
      rw [hc]
      rfl

theorem lastWith?_v0_merged (lq rq : List Quote) (k : String) (hk : k ∉ rq.map quoteKey) :
    lastWith? (lq ++ rq.filter (fun p => !((lq.map quoteKey).contains (quoteKey p)))) k =
      lastWith? lq k := by
  apply lastWith?_append_none
  apply lastWith?_eq_none
  intro hmem
  rcases List.mem_map.mp hmem with ⟨p, hp, hpk⟩
  exact hk (hpk ▸ List.mem_map_of_mem quoteKey (List.mem_filter.mp hp).1)

theorem countKey_of_mem_keys (m : List (String × Quote)) (k : String) (hkeyed : Keyed m)
    (hnodup : (keysOf m).Nodup) (hk : k ∈ keysOf m) :
    countKey (m.map Prod.snd) k = 1 := by
  rw [countKey_map_snd m k hkeyed]
  exact countP_beq_eq_one _ k hnodup hk

/-! Error propagation in the raw-quote embeddings. -/

theorem keyE_some (q : RawQuote) (t : String) (h : q.text = some t) :
    keyE q = Except.ok (toLowerCase t) := by
  unfold keyE
  rw [h]

theorem keyE_none (q : RawQuote) (h : q.text = none) :
    keyE q = Except.error errTypeError := by
  unfold keyE
  rw [h]

theorem buildMapE_nil (m : List (String × RawQuote)) : buildMapE m [] = Except.ok m := rfl

theorem buildMapE_cons (m : List (String × RawQuote)) (q : RawQuote) (qs : List RawQuote) :
    buildMapE m (q :: qs) =
      match keyE q with
      | Except.ok k => buildMapE (upsert m k q) qs
      | Except.error e => Except.error e := rfl

theorem buildMapE_ok (l : List RawQuote) (m : List (String × RawQuote))
    (h : ∀ q ∈ l, q.text.isSome = true) : ∃ m2, buildMapE m l = Except.ok m2 := by
  induction l generalizing m with
  | nil => exact ⟨m, rfl⟩
  | cons q rest ih =>
    have hq := h q (List.mem_cons_self q rest)
    cases ht : q.text with
    | none =>
      rw [ht] at hq
      exact absurd hq (by simp)
    | some t =>
      rw [buildMapE_cons, keyE_some q t ht]
      exact ih _ (fun p hp => h p (List.mem_cons_of_mem _ hp))

theorem buildMapE_error (l : List RawQuote) (m : List (String × RawQuote))
    (h : ∃ q ∈ l, q.text = none) : buildMapE m l = Except.error errTypeError := by
  induction l generalizing m with
  | nil =>
    rcases h with ⟨q, hq, _⟩
    exact absurd hq (List.not_mem_nil q)
  | cons p rest ih =>
    cases hp : p.text with
    | none => rw [buildMapE_cons, keyE_none p hp]
    | some t =>
      rw [buildMapE_cons, keyE_some p t hp]
      apply ih
      rcases h with ⟨q, hq, hqt⟩
      rcases List.mem_cons.mp hq with hq | hq
      · rw [hq, hp] at hqt
        exact absurd hqt (by simp)
      · exact ⟨q, hq, hqt⟩

theorem textKeysE_ok (l : List RawQuote) (h : ∀ q ∈ l, q.text.isSome = true) :
    ∃ ks, textKeysE l = Except.ok ks := by
  induction l with
  | nil => exact ⟨[], rfl⟩
  | cons q rest ih =>
    have hq := h q (List.mem_cons_self q rest)
    cases ht : q.text with
    | none =>
      rw [ht] at hq
      exact absurd hq (by simp)
    | some t =>
      rcases ih (fun p hp => h p (List.mem_cons_of_mem _ hp)) with ⟨ks, hks⟩
      refine ⟨toLowerCase t :: ks, ?_⟩
      rw [textKeysE, keyE_some q t ht, hks]

theorem filterNewE_ok (lts : List String) (l : List RawQuote)
    (h : ∀ q ∈ l, q.text.isSome = true) : ∃ rs, filterNewE lts l = Except.ok rs := by
  induction l with
  | nil => exact ⟨[], rfl⟩
  | cons q rest ih =>
    have hq := h q (List.mem_cons_self q rest)
    cases ht : q.text with
    | none =>
      rw [ht] at hq
      exact absurd hq (by simp)
    | some t =>
      rcases ih (fun p hp => h p (List.mem_cons_of_mem _ hp)) with ⟨rs, hrs⟩
      refine ⟨if lts.contains (toLowerCase t) then rs else q :: rs, ?_⟩
      rw [filterNewE, keyE_some q t ht, hrs]

theorem resolveConflicts_v1E_ok (lq rq : List RawQuote)
    (h : ∀ q ∈ lq ++ rq, q.text.isSome = true) :
    ∃ out, resolveConflicts_v1E lq rq = Except.ok out := by
  rcases buildMapE_ok lq [] (fun q hq => h q (List.mem_append_left _ hq)) with ⟨m1, h1⟩
  rcases buildMapE_ok rq m1 (fun q hq => h q (List.mem_append_right _ hq)) with ⟨m2, h2⟩
  refine ⟨m2.map Prod.snd, ?_⟩
  simp only [resolveConflicts_v1E, h1, h2]

theorem resolveConflicts_v1E_error_local (lq rq : List RawQuote)
    (h : ∃ q ∈ lq, q.text = none) :
    resolveConflicts_v1E lq rq = Except.error errTypeError := by
  rw [resolveConflicts_v1E, buildMapE_error lq [] h]

theorem filterNewE_subset (lts : List String) (l : List RawQuote) (rs : List RawQuote)
    (h : filterNewE lts l = Except.ok rs) : ∀ q ∈ rs, q ∈ l := by
  induction l generalizing rs with
  | nil =>
    have h2 : ([] : List RawQuote) = rs := by
      have h3 : Except.ok ([] : List RawQuote) = Except.ok rs := h
      injection h3
    intro q hq
    rw [← h2] at hq
    exact absurd hq (List.not_mem_nil q)
  | cons p rest ih =>
    cases hp : p.text with
    | none =>
      simp only [filterNewE, keyE_none p hp] at h
      exact Except.noConfusion h
    | some t =>
      cases hrest : filterNewE lts rest with
      | error e =>
        simp only [filterNewE, keyE_some p t hp, hrest] at h
        exact Except.noConfusion h
      | ok rs2 =>
        simp only [filterNewE, keyE_some p t hp, hrest] at h
        by_cases hc : lts.contains (toLowerCase t) = true
        · rw [if_pos hc] at h
          have h2 : rs2 = rs := by
            have h3 : Except.ok rs2 = Except.ok rs := h
            injection h3
          intro q hq
          rw [← h2] at hq
          exact List.mem_cons_of_mem _ (ih rs2 hrest q hq)
        · rw [if_neg hc] at h
          have h2 : p :: rs2 = rs := by
            have h3 : Except.ok (p :: rs2) = Except.ok rs := h
            injection h3
          intro q hq
          rw [← h2] at hq
          rcases List.mem_cons.mp hq with hq | hq
          · exact hq ▸ List.mem_cons_self p rest
          · exact List.mem_cons_of_mem _ (ih rs2 hrest q hq)

theorem resolveConflicts_v0E_ok (lq rq : List RawQuote)
    (h : ∀ q ∈ lq ++ rq, q.text.isSome = true) :
    ∃ out, resolveConflicts_v0E lq rq = Except.ok out := by
  rcases textKeysE_ok lq (fun q hq => h q (List.mem_append_left _ hq)) with ⟨lts, h1⟩
  rcases filterNewE_ok lts rq (fun q hq => h q (List.mem_append_right _ hq)) with ⟨rs, h2⟩
  have hmerged : ∀ q ∈ lq ++ rs, q.text.isSome = true := by
    intro q hq
    rcases List.mem_append.mp hq with hq | hq
    · exact h q (List.mem_append_left _ hq)
    · exact h q (List.mem_append_right _ (filterNewE_subset lts rq rs h2 q hq))
  rcases buildMapE_ok (lq ++ rs) [] hmerged with ⟨uniq, h3⟩
  refine ⟨objectValues uniq, ?_⟩
  simp only [resolveConflicts_v0E, h1, h2, h3]

/-! The import loop appends, never touches the existing prefix, and only
appends records whose key is fresh. -/

theorem importStep_eq (st : List Quote × List String) (q : Quote) :
    importStep st q =
      if st.2.contains (importKey q) then st else (st.1 ++ [q], importKey q :: st.2) := rfl

theorem importLoop_spec (vs : List Quote) (cur : List Quote) (ks : List String) :
    ∃ app : List Quote,
      (vs.foldl importStep (cur, ks)).1 = cur ++ app ∧
      (∀ q ∈ app, q ∈ vs) ∧
      (∀ q ∈ app, importKey q ∉ ks) ∧
      (app.map importKey).Nodup := by
  induction vs generalizing cur ks with
  | nil =>
    refine ⟨[], by simp, ?_, ?_, by simp⟩
    · intro q hq
      exact absurd hq (List.not_mem_nil q)
    · intro q hq
      exact absurd hq (List.not_mem_nil q)
  | cons q rest ih =>
    by_cases hc : ks.contains (importKey q) = true
    · have hstep : importStep (cur, ks) q = (cur, ks) := by
        rw [importStep_eq, if_pos hc]
      rw [List.foldl_cons, hstep]
      rcases ih cur ks with ⟨app, h1, h2, h3, h4⟩
      exact ⟨app, h1, fun p hp => List.mem_cons_of_mem q (h2 p hp), h3, h4⟩
    · have hstep : importStep (cur, ks) q = (cur ++ [q], importKey q :: ks) := by
        rw [importStep_eq, if_neg hc]
      rw [List.foldl_cons, hstep]
      rcases ih (cur ++ [q]) (importKey q :: ks) with ⟨app, h1, h2, h3, h4⟩
      refine ⟨q :: app, ?_, ?_, ?_, ?_⟩
      · rw [h1, List.append_assoc, List.singleton_append]
      · intro p hp
        rcases List.mem_cons.mp hp with hp | hp
        · exact hp ▸ List.mem_cons_self q rest
        · exact List.mem_cons_of_mem q (h2 p hp)
      · intro p hp
        rcases List.mem_cons.mp hp with hp | hp
        · subst hp
          intro hmem
          exact hc ((contains_iff _ _).mpr hmem)
        · intro hmem
          exact h3 p hp (List.mem_cons_of_mem _ hmem)
      · rw [List.map_cons, List.nodup_cons]
        refine ⟨?_, h4⟩
        intro hmem
        rcases List.mem_map.mp hmem with ⟨p, hp, hpk⟩
        exact h3 p hp (List.mem_cons.mpr (Or.inl hpk))

theorem importFromJsonFile_of_empty (existing : List Quote) (parsed : List (Option RawQuote))
    (h : (parsed.filterMap toQuote?).isEmpty = true) :
    importFromJsonFile existing parsed = existing := by
  rw [importFromJsonFile, if_pos h]

theorem importFromJsonFile_of_not_empty (existing : List Quote) (parsed : List (Option RawQuote))
    (h : ¬(parsed.filterMap toQuote?).isEmpty = true) :
    importFromJsonFile existing parsed =
      ((parsed.filterMap toQuote?).foldl importStep (existing, existing.map importKey)).1 := by
  rw [importFromJsonFile, if_neg h]

theorem importFromJsonFile_spec (existing : List Quote) (parsed : List (Option RawQuote)) :
    ∃ app : List Quote,
      importFromJsonFile existing parsed = existing ++ app ∧
      (∀ q ∈ app, ∃ r ∈ parsed, toQuote? r = some q) ∧
      (∀ q ∈ app, importKey q ∉ existing.map importKey) ∧
      (app.map importKey).Nodup := by
  by_cases h : (parsed.filterMap toQuote?).isEmpty = true
  · refine ⟨[], by rw [importFromJsonFile_of_empty existing parsed h, List.append_nil], ?_, ?_, by simp⟩
    · intro q hq
      exact absurd hq (List.not_mem_nil q)
    · intro q hq
      exact absurd hq (List.not_mem_nil q)
  · rcases importLoop_spec (parsed.filterMap toQuote?) existing (existing.map importKey)
      with ⟨app, h1, h2, h3, h4⟩
    refine ⟨app, ?_, ?_, ?_, h4⟩
    · rw [importFromJsonFile_of_not_empty existing parsed h, h1]
    · intro q hq
      exact List.mem_filterMap.mp (h2 q hq)
    · intro q hq hmem
      exact h3 q hq hmem

/-! Final helper layer: identity of the resolvers on duplicate-free local
data, and idempotence of the object key reordering. -/

theorem lastWith?_some_mem (qs : List Quote) (k : String) (q : Quote)
    (h : lastWith? qs k = some q) : q ∈ qs ∧ quoteKey q = k := by
  induction qs with
  | nil => exact Option.noConfusion h
  | cons p rest ih =>
    cases hr : lastWith? rest k with
    | some r =>
      rw [lastWith?_cons_some p rest k r hr] at h
      rw [Option.some_inj] at h
      subst h
      rcases ih hr with ⟨hmem, hkey⟩
      exact ⟨List.mem_cons_of_mem _ hmem, hkey⟩
    | none =>
      rw [lastWith?_cons_none p rest k hr] at h
      by_cases hp : quoteKey p = k
      · rw [if_pos hp] at h
        rw [Option.some_inj] at h
        subst h
        exact ⟨List.mem_cons_self _ _, hp⟩
      · rw [if_neg hp] at h
        exact Option.noConfusion h

theorem v1_nodup_local_id (lq : List Quote) (h : (lq.map quoteKey).Nodup) :
    resolveConflicts_v1 lq [] = lq := by
  rw [resolveConflicts_v1_eq, buildMap_nil,
    buildMap_eq_append lq [] (fun q _ hq => absurd hq (List.not_mem_nil _)) h,
    List.nil_append, map_snd_map_pair]

theorem keyed_entries_of_values (L : List (String × Quote)) (h : Keyed L) :
    (L.map Prod.snd).map (fun q => (quoteKey q, q)) = L := by
  rw [List.map_map]
  have hcong : ∀ e ∈ L, ((fun q => (quoteKey q, q)) ∘ Prod.snd) e = id e := by
    intro e he
    show (quoteKey e.2, e.2) = e
    rw [h e he]
  rw [List.map_congr_left hcong, List.map_id]

theorem objectValues_normal {α : Type} (A B : List (String × α))
    (hA : ∀ e ∈ A, isIdxEntry e = true) (hB : ∀ e ∈ B, isIdxEntry e = false) :
    objectValues (sortByIdx A ++ B) = (sortByIdx A ++ B).map Prod.snd := by
  rw [objectValues_eq]
  have hA2 : ∀ e ∈ sortByIdx A, isIdxEntry e = true :=
    fun e he => hA e ((sortByIdx_perm A).mem_iff.mp he)
  have hfilter1 : (sortByIdx A ++ B).filter isIdxEntry = sortByIdx A := by
    rw [List.filter_append, List.filter_eq_self.mpr hA2,
      List.filter_eq_nil_iff.mpr (fun a ha => by rw [hB a ha]; exact Bool.false_ne_true),
      List.append_nil]
  have hfilter2 : (sortByIdx A ++ B).filter (fun e => !isIdxEntry e) = B := by
    have e1 : (sortByIdx A).filter (fun e => !isIdxEntry e) = [] := by
      refine List.filter_eq_nil_iff.mpr ?_
      intro a ha
      rw [hA2 a ha]
      simp
    have e2 : B.filter (fun e => !isIdxEntry e) = B := by
      refine List.filter_eq_self.mpr ?_
      intro a ha
      rw [hB a ha]
      rfl
    rw [List.filter_append, e1, e2, List.nil_append]
  rw [hfilter1, hfilter2, sortByIdx_eq_of_pairwise _ (pairwise_sortByIdx A)]

theorem filter_true_of_nil_contains (rq : List Quote) :
    rq.filter (fun q => !((([] : List Quote).map quoteKey).contains (quoteKey q))) = rq :=
  List.filter_eq_self.mpr (fun _ _ => rfl)

theorem v0_empty_local_eq (rq : List Quote) :
    resolveConflicts_v0 [] rq = objectValues (buildMap [] rq) := by
  rw [resolveConflicts_v0_eq, filter_true_of_nil_contains, List.nil_append]

theorem v0_no_idx_empty_local (rq : List Quote)
    (h : ∀ q ∈ rq, arrayIndexVal? (quoteKey q) = none) :
    resolveConflicts_v0 [] rq = dedupLastWins rq := by
  rw [v0_empty_local_eq]
  have hno : ∀ e ∈ buildMap [] rq, isIdxEntry e = false := by
    intro e he
    have hkey : e.1 ∈ keysOf (buildMap [] rq) := List.mem_map_of_mem Prod.fst he
    rw [mem_keysOf_buildMap] at hkey
    rcases hkey with hkey | hkey
    · exact absurd hkey (by simp [keysOf])
    · rcases List.mem_map.mp hkey with ⟨q, hq, hqk⟩
      rw [isIdxEntry, ← hqk, h q hq]
      rfl
  rw [objectValues_of_no_idx _ hno, map_snd_buildMap_eq_dedup]

theorem v0_nodup_local_id (lq : List Quote) (h1 : (lq.map quoteKey).Nodup)
    (h2 : ∀ q ∈ lq, arrayIndexVal? (quoteKey q) = none) :
    resolveConflicts_v0 lq [] = lq := by
  rw [resolveConflicts_v0_eq, List.filter_nil, List.append_nil,
    buildMap_eq_append lq [] (fun q _ hq => absurd hq (List.not_mem_nil _)) h1,
    List.nil_append]
  have hno : ∀ e ∈ lq.map (fun q => (quoteKey q, q)), isIdxEntry e = false := by
    intro e he
    rcases List.mem_map.mp he with ⟨q, hq, hqe⟩
    rw [← hqe, isIdxEntry, h2 q hq]
    rfl
  rw [objectValues_of_no_idx _ hno, map_snd_map_pair]

theorem v0_self_normal (m : List (String × Quote)) (hK : Keyed m)
    (hN : (keysOf m).Nodup) :
    resolveConflicts_v0 (objectValues m) [] = objectValues m := by
  have hL : objectValues m =
      (sortByIdx (m.filter isIdxEntry) ++ m.filter (fun e => !isIdxEntry e)).map Prod.snd :=
    objectValues_eq m
  have hKL : Keyed (sortByIdx (m.filter isIdxEntry) ++ m.filter (fun e => !isIdxEntry e)) := by
    intro e he
    rcases List.mem_append.mp he with he | he
    · exact hK e (List.mem_filter.mp ((sortByIdx_perm _).mem_iff.mp he)).1
    · exact hK e (List.mem_filter.mp he).1
  have hnodup : ((objectValues m).map quoteKey).Nodup := by
    have hperm := (objectValues_perm m).map quoteKey
    rw [keyed_map_snd_keys m hK] at hperm
    exact hperm.nodup_iff.mpr hN
  have hB2 : ∀ e ∈ m.filter (fun e => !isIdxEntry e), isIdxEntry e = false := by
    intro e he
    have h2 := (List.mem_filter.mp he).2
    simp at h2
    exact h2
  rw [resolveConflicts_v0_eq, List.filter_nil, List.append_nil,
    buildMap_eq_append _ [] (fun q _ hq => absurd hq (List.not_mem_nil _)) hnodup,
    List.nil_append, hL, keyed_entries_of_values _ hKL]
  exact objectValues_normal _ _ (fun e he => (List.mem_filter.mp he).2) hB2

/-! The claims. -/

/-- Claim C1: on a key collision the remote record and its fields should win.
The part_000 resolver filters colliding server quotes out before merging, so
the local record wins there, contradicting its own comments (server
overwrites duplicates); the part_001 resolver keeps the remote record as the
claim states.  This theorem evaluates both variants at the failing input. -/
theorem c1_collision_divergence :
    resolveConflicts_v0 [qC1Loc] [qC1Rem] = [qC1Loc] ∧
    resolveConflicts_v1 [qC1Loc] [qC1Rem] = [qC1Rem] := by
  constructor
  · decide
  · decide

/-- Claim C2 counterexample: with local = [qAX, qaY], two local records with
colliding keys, and an empty remote, both resolvers drop qAX even though no
remote record supersedes it, so not every local item appears in the output
unless superseded by a remote item. -/
theorem c2_counterexample :
    resolveConflicts_v0 [qAX, qaY] [] = [qaY] ∧
    resolveConflicts_v1 [qAX, qaY] [] = [qaY] ∧
    qAX ∉ resolveConflicts_v1 [qAX, qaY] [] := by
  refine ⟨by decide, by decide, by decide⟩

/-- Claim C2 (amended): every key present in local but not in remote appears
exactly once in either resolver output, carrying the fields of the last local
record bearing that key; hence a local item appears in the output whenever no
remote item and no later local item collides with its key. -/
theorem c2_amended (lq rq : List Quote) (k : String) (q : Quote)
    (hr : k ∉ rq.map quoteKey) (hl : lastWith? lq k = some q) :
    (countKey (resolveConflicts_v0 lq rq) k = 1 ∧ q ∈ resolveConflicts_v0 lq rq) ∧
    (countKey (resolveConflicts_v1 lq rq) k = 1 ∧ q ∈ resolveConflicts_v1 lq rq) := by
  have hkq : q ∈ lq ∧ quoteKey q = k := lastWith?_some_mem lq k q hl
  have hkeyl : k ∈ lq.map quoteKey := hkq.2 ▸ List.mem_map_of_mem quoteKey hkq.1
  constructor
  · have hml := lastWith?_v0_merged lq rq k hr
    rw [hl] at hml
    have hfind := findVal_buildMap_of_some _ [] k q hml
    have hmem0 : q ∈ (buildMap []
        (lq ++ rq.filter (fun p => !((lq.map quoteKey).contains (quoteKey p))))).map Prod.snd :=
      List.mem_map_of_mem Prod.snd (findVal_mem _ k q hfind)
    have hkeys : k ∈ keysOf (buildMap []
        (lq ++ rq.filter (fun p => !((lq.map quoteKey).contains (quoteKey p))))) := by
      rw [mem_keysOf_buildMap]
      right
      rw [List.map_append, List.mem_append]
      exact Or.inl hkeyl
    constructor
    · rw [resolveConflicts_v0_eq,
        countKey_perm _ _ k (objectValues_perm _),
        countKey_of_mem_keys _ k (keyed_buildMap _ _ keyed_nil)
          (nodup_keysOf_buildMap _ _ nodup_keysOf_nil) hkeys]
    · rw [resolveConflicts_v0_eq]
      exact (objectValues_perm _).mem_iff.mpr hmem0
  · have hrn : lastWith? rq k = none := lastWith?_eq_none rq k hr
    have hfind : findVal (buildMap (buildMap [] lq) rq) k = some q := by
      rw [findVal_buildMap_of_none rq _ k hrn]
      exact findVal_buildMap_of_some lq [] k q hl
    have hkeys : k ∈ keysOf (buildMap (buildMap [] lq) rq) := by
      rw [mem_keysOf_buildMap]
      left
      rw [mem_keysOf_buildMap]
      exact Or.inr hkeyl
    constructor
    · rw [resolveConflicts_v1_eq,
        countKey_of_mem_keys _ k (keyed_buildMap _ _ (keyed_buildMap _ _ keyed_nil))
          (nodup_keysOf_buildMap _ _ (nodup_keysOf_buildMap _ _ nodup_keysOf_nil)) hkeys]
    · rw [resolveConflicts_v1_eq]
      exact List.mem_map_of_mem Prod.snd (findVal_mem _ k q hfind)

/-- Witness for claim C2 at a concrete input: key of qaY is only in local, so
both resolvers keep exactly one record with that key, namely qaY. -/
theorem c2_witness :
    (countKey (resolveConflicts_v0 [qaY] [qBY]) (quoteKey qaY) = 1 ∧
      qaY ∈ resolveConflicts_v0 [qaY] [qBY]) ∧
    (countKey (resolveConflicts_v1 [qaY] [qBY]) (quoteKey qaY) = 1 ∧
      qaY ∈ resolveConflicts_v1 [qaY] [qBY]) :=
  c2_amended [qaY] [qBY] (quoteKey qaY) qaY (by decide) (by decide)

/-- Claim C3 counterexample: merging local = [qAX, qaY] with an empty remote
does not return local unchanged in either variant; the local internal key
collision collapses the two records into one. -/
theorem c3_counterexample :
    resolveConflicts_v1 [qAX, qaY] [] ≠ [qAX, qaY] ∧
    resolveConflicts_v0 [qAX, qaY] [] ≠ [qAX, qaY] := by
  refine ⟨by decide, by decide⟩

/-- Claim C3 (amended): with pairwise distinct local keys the Map based
resolver (part_001) returns local unchanged on an empty remote; the object
based resolver (part_000) does too provided additionally no local key is an
array-index string (its object storage moves such keys to the front in
numeric order); merging two empty sequences yields the empty sequence in both
variants. -/
theorem c3_amended :
    (∀ lq : List Quote, (lq.map quoteKey).Nodup → resolveConflicts_v1 lq [] = lq) ∧
    (∀ lq : List Quote, (lq.map quoteKey).Nodup →
      (∀ q ∈ lq, arrayIndexVal? (quoteKey q) = none) → resolveConflicts_v0 lq [] = lq) ∧
    resolveConflicts_v1 [] [] = [] ∧ resolveConflicts_v0 [] [] = [] :=
  ⟨v1_nodup_local_id, v0_nodup_local_id, rfl, rfl⟩

/-- Witness for claim C3 at a concrete input with one local record. -/
theorem c3_witness :
    resolveConflicts_v1 [qAX] [] = [qAX] ∧ resolveConflicts_v0 [qAX] [] = [qAX] :=
  ⟨c3_amended.1 [qAX] (by decide), c3_amended.2.1 [qAX] (by decide) (by decide)⟩

/-- Claim C4 counterexample: with empty local and remote = [q1Y, q0Z], whose
keys are distinct canonical array-index strings, the deduplicated remote
sequence is the sequence itself, but the part_000 resolver returns the two
records reordered by numeric key, so its result is not the remote sequence
deduplicated against itself. -/
theorem c4_counterexample :
    dedupLastWins [q1Y, q0Z] = [q1Y, q0Z] ∧
    resolveConflicts_v0 [] [q1Y, q0Z] = [q0Z, q1Y] ∧
    resolveConflicts_v0 [] [q1Y, q0Z] ≠ dedupLastWins [q1Y, q0Z] := by
  refine ⟨by decide, by decide, by decide⟩

/-- Claim C4 (amended): with empty local the part_001 resolver returns
exactly the remote sequence deduplicated against itself by key, the later
record winning on a collision; the part_000 resolver returns the same
provided no remote key is an array-index string, and on the spec example both
return the single record qbZ. -/
theorem c4_amended :
    (∀ rq : List Quote, resolveConflicts_v1 [] rq = dedupLastWins rq) ∧
    (∀ rq : List Quote, (∀ q ∈ rq, arrayIndexVal? (quoteKey q) = none) →
      resolveConflicts_v0 [] rq = dedupLastWins rq) ∧
    resolveConflicts_v1 [] [qBY, qbZ] = [qbZ] ∧
    resolveConflicts_v0 [] [qBY, qbZ] = [qbZ] := by
  refine ⟨v1_empty_local_eq_dedup, v0_no_idx_empty_local, by decide, by decide⟩

/-- Witness for claim C4 at a concrete remote whose key is not an array
index. -/
theorem c4_witness :
    resolveConflicts_v0 [] [qxY] = dedupLastWins [qxY] :=
  c4_amended.2.1 [qxY] (by decide)

/-- Claim C5: both resolver outputs are deduplicated (no two output records
share a lower-cased text key) and every input record has a representative
with its key in the output, so no input is dropped except by key
deduplication. -/
theorem c5_dedup_coverage (lq rq : List Quote) :
    ((resolveConflicts_v0 lq rq).map quoteKey).Nodup ∧
    ((resolveConflicts_v1 lq rq).map quoteKey).Nodup ∧
    (∀ q ∈ lq ++ rq,
      (∃ r ∈ resolveConflicts_v0 lq rq, quoteKey r = quoteKey q) ∧
      (∃ r ∈ resolveConflicts_v1 lq rq, quoteKey r = quoteKey q)) := by
  refine ⟨nodup_keys_v0 lq rq, nodup_keys_v1 lq rq, ?_⟩
  intro q hq
  constructor
  · rcases mem_keys_exists_value _ _ (keyed_buildMap _ _ keyed_nil)
      (mem_keys_v0_map lq rq q hq) with ⟨r, hr, hrk⟩
    refine ⟨r, ?_, hrk⟩
    rw [resolveConflicts_v0_eq]
    exact (objectValues_perm _).mem_iff.mpr hr
  · rcases mem_keys_exists_value _ _ (keyed_buildMap _ _ (keyed_buildMap _ _ keyed_nil))
      (mem_keys_v1_map lq rq q hq) with ⟨r, hr, hrk⟩
    exact ⟨r, hr, hrk⟩

/-- Witness for claim C5 at a concrete input pair. -/
theorem c5_witness :
    (∃ r ∈ resolveConflicts_v0 [qAX] [qbZ], quoteKey r = quoteKey qAX) ∧
    (∃ r ∈ resolveConflicts_v1 [qAX] [qbZ], quoteKey r = quoteKey qAX) :=
  (c5_dedup_coverage [qAX] [qbZ]).2.2 qAX (by decide)

/-- Claim C6: merging either resolver output with an empty remote returns it
unchanged, same records in the same order. -/
theorem c6_idempotent (a b : List Quote) :
    resolveConflicts_v1 (resolveConflicts_v1 a b) [] = resolveConflicts_v1 a b ∧
    resolveConflicts_v0 (resolveConflicts_v0 a b) [] = resolveConflicts_v0 a b := by
  constructor
  · exact v1_nodup_local_id _ (nodup_keys_v1 a b)
  · rw [resolveConflicts_v0_eq a b]
    exact v0_self_normal _ (keyed_buildMap _ _ keyed_nil)
      (nodup_keysOf_buildMap _ _ nodup_keysOf_nil)

/-- Claim C7 counterexample: a record whose text is the empty string (not a
non-empty string) is not filtered out -- the part_001 resolver keeps it, so
its output is not the empty sequence the claim would require -- and a record
whose text is not a string makes the same resolver throw a TypeError instead
of returning normally. -/
theorem c7_counterexample :
    resolveConflicts_v1 [] [qEmptyY] = [qEmptyY] ∧
    ([qEmptyY] : List Quote) ≠ [] ∧
    resolveConflicts_v1E [] [rqNoText] = Except.error errTypeError := by
  refine ⟨by decide, by decide, by rfl⟩

/-- Claim C7 (amended): the resolver performs no filtering: a record whose
text is the empty string is kept by both variants, keyed by the empty string;
and whenever some local record carries a non-string text the part_001
resolver throws a TypeError instead of treating the record as absent. -/
theorem c7_amended :
    (∀ c : String,
      resolveConflicts_v1 [] [{ text := emptyStr, category := c }] =
        [{ text := emptyStr, category := c }] ∧
      resolveConflicts_v0 [] [{ text := emptyStr, category := c }] =
        [{ text := emptyStr, category := c }]) ∧
    (∀ lq rq : List RawQuote, (∃ q ∈ lq, q.text = none) →
      resolveConflicts_v1E lq rq = Except.error errTypeError) := by
  constructor
  · intro c
    exact ⟨rfl, rfl⟩
  · intro lq rq h
    exact resolveConflicts_v1E_error_local lq rq h

/-- Witness for claim C7: a concrete local list containing a non-string text
makes the part_001 resolver throw. -/
theorem c7_witness :
    resolveConflicts_v1E [rqNoText] [] = Except.error errTypeError :=
  c7_amended.2 [rqNoText] [] ⟨rqNoText, List.mem_cons_self _ _, rfl⟩

/-- Claim C8: on well-formed inputs, where every record carries string text
and string category, both resolvers terminate normally with a result instead
of throwing.  The embedding of both bodies as total pure functions of the two
argument lists reflects that the cited lines read no storage, touch no DOM
and never mutate their arguments. -/
theorem c8_total_on_wellformed (lq rq : List RawQuote)
    (h : ∀ q ∈ lq ++ rq, q.text.isSome = true ∧ q.category.isSome = true) :
    (∃ out, resolveConflicts_v0E lq rq = Except.ok out) ∧
    (∃ out, resolveConflicts_v1E lq rq = Except.ok out) :=
  ⟨resolveConflicts_v0E_ok lq rq (fun q hq => (h q hq).1),
   resolveConflicts_v1E_ok lq rq (fun q hq => (h q hq).1)⟩

/-- Witness for claim C8 at a concrete well-formed input pair. -/
theorem c8_witness :
    (∃ out, resolveConflicts_v0E [rqAX] [rqbZ] = Except.ok out) ∧
    (∃ out, resolveConflicts_v1E [rqAX] [rqbZ] = Except.ok out) :=
  c8_total_on_wellformed [rqAX] [rqbZ] (by decide)

/-- Claim C9: both resolvers are deterministic: equal input pairs produce
equal outputs, relative order included.  Each body is embedded as a pure
function of its two arguments, matching source code that consults no other
state and no randomness. -/
theorem c9_deterministic (a b a2 b2 : List Quote) (ha : a = a2) (hb : b = b2) :
    resolveConflicts_v0 a b = resolveConflicts_v0 a2 b2 ∧
    resolveConflicts_v1 a b = resolveConflicts_v1 a2 b2 := by
  subst ha
  subst hb
  exact ⟨rfl, rfl⟩

/-- Witness for claim C9 at a concrete input pair. -/
theorem c9_witness :
    resolveConflicts_v0 [qAX] [qbZ] = resolveConflicts_v0 [qAX] [qbZ] ∧
    resolveConflicts_v1 [qAX] [qbZ] = resolveConflicts_v1 [qAX] [qbZ] :=
  c9_deterministic [qAX] [qbZ] [qAX] [qbZ] rfl rfl

/-- Claim C10: importFromJsonFile keeps every pre-existing quote unchanged in
its original position (the output starts with the existing array), only
records with string text and string category are considered, and a considered
record is appended only when its case-sensitive text-category key is absent
from the existing quotes and from the records appended earlier in the same
import, so the appended keys are pairwise distinct and disjoint from the
existing keys. -/
theorem c10_import (existing : List Quote) (parsed : List (Option RawQuote)) :
    (importFromJsonFile existing parsed).take existing.length = existing ∧
    (∀ q ∈ (importFromJsonFile existing parsed).drop existing.length,
      (∃ r ∈ parsed, toQuote? r = some q) ∧ importKey q ∉ existing.map importKey) ∧
    (((importFromJsonFile existing parsed).drop existing.length).map importKey).Nodup := by
  rcases importFromJsonFile_spec existing parsed with ⟨app, h1, h2, h3, h4⟩
  rw [h1]
  refine ⟨List.take_left existing app, ?_, ?_⟩
  · rw [List.drop_left]
    intro q hq
    exact ⟨h2 q hq, h3 q hq⟩
  · rw [List.drop_left]
    exact h4

/-- Witness for claim C10: importing [some rqbZ, none] over [qBY] appends qbZ,
a considered record with a fresh key. -/
theorem c10_witness :
    (∃ r ∈ [some rqbZ, none], toQuote? r = some qbZ) ∧
    importKey qbZ ∉ [qBY].map importKey :=
  (c10_import [qBY] [some rqbZ, none]).2.1 qbZ (by decide)

end QuoteSync
